import Mathlib

/-!
Verification of the naming/text-transformation core of the craftRig
repository (`lib/naming.py`): case-style classification, tokenization,
case conversion, digit-run arithmetic, alphabetic base-26 arithmetic and
digit extraction.  Python strings are modelled as `String`/`List Char`,
the regular expressions of the source are translated into executable
greedy matchers (each regex alternative is separated from the next by a
character class disjoint from the one it ends in, so greedy matching is
equivalent to the backtracking semantics of `re`), and the partial
operations of the source (indexing `[0]` on a possibly empty list) are
modelled with `Option`/`Except`.
-/

namespace CraftRig

/-- ASCII `[a-z]` character-class test used throughout the source regexes. -/
def isLowerAZ (c : Char) : Bool := decide (97 ≤ c.toNat) && decide (c.toNat ≤ 122)

/-- ASCII `[A-Z]` character-class test. -/
def isUpperAZ (c : Char) : Bool := decide (65 ≤ c.toNat) && decide (c.toNat ≤ 90)

/-- ASCII `[0-9]` character-class test, `\d` in the source regexes. -/
def isDigitC (c : Char) : Bool := decide (48 ≤ c.toNat) && decide (c.toNat ≤ 57)

/-- Test for the `[A-Za-z]` character class. -/
def isAlphaC (c : Char) : Bool := isUpperAZ c || isLowerAZ c

/-- Test for the `[a-z0-9]` character class (tail of a camel/Pascal hump). -/
def isLowDig (c : Char) : Bool := isLowerAZ c || isDigitC c

/-- ASCII part of Python's `\s` class. -/
def isSpaceC (c : Char) : Bool :=
  c == ' ' || c == '\t' || c == '\n' || c == '\r' || c == '\x0b' || c == '\x0c'

/-- Decimal digit character for `d < 10`, as produced by Python `str(int)`. -/
def digitChar (n : Nat) : Char := Char.ofNat (48 + n)

/-- Decimal rendering of a natural number (fuel-structured so that it
evaluates in the kernel); `natDigitsAux (n+1) n` renders `n` the way
Python `str` renders a non-negative `int`. -/
def natDigitsAux : Nat → Nat → List Char
  | 0, _ => []
  | fuel + 1, n => if n < 10 then [digitChar n] else natDigitsAux fuel (n / 10) ++ [digitChar (n % 10)]

/-- Decimal rendering of `n`, Python `str(n)` for a non-negative `int`. -/
def natDigits (n : Nat) : List Char := natDigitsAux (n + 1) n

/-- Value of a digit-only string, Python `int(s)` on a run of digits. -/
def digitsVal (l : List Char) : Nat := l.foldl (fun a c => a * 10 + (c.toNat - 48)) 0

/-- Python `str.zfill` on a digit-only string: left-pad with `'0'` to `width`. -/
def zfill (width : Nat) (l : List Char) : List Char :=
  List.replicate (width - l.length) '0' ++ l

/-- The `digits` parameter handling of `increment_digit`: the Python default
is `None` and the body runs `if not digits: digits = 2`, so both `None` and
`0` collapse to the default width 2. -/
def effectiveDigits : Option Nat → Nat
  | none => 2
  | some n => if n = 0 then 2 else n

/-- Function `increment_digit` from `lib/naming.py`: find the trailing digit run
(`(\d+)$`), increment its integer value and zero-fill the result to the
`digits` width; with no trailing run append `"1".zfill(digits)`. -/
def increment_digit (text : String) (digits : Option Nat) : String :=
  let d := effectiveDigits digits
  let rev := text.data.reverse
  let runRev := rev.takeWhile isDigitC
  if runRev.isEmpty then String.mk (text.data ++ zfill d ['1'])
  else String.mk ((rev.dropWhile isDigitC).reverse ++ zfill d (natDigits (digitsVal runRev.reverse + 1)))

/-- Function `decrement_digit` from `lib/naming.py`: find the trailing digit run; a
run of value 0 or 1 is removed outright, otherwise the value is decremented
and zero-filled to the run's original length; without a trailing run the
text is returned unchanged. -/
def decrement_digit (text : String) : String :=
  let rev := text.data.reverse
  let runRev := rev.takeWhile isDigitC
  if runRev.isEmpty then text
  else
    let run := runRev.reverse
    let v := digitsVal run
    if v = 0 || v = 1 then String.mk (rev.dropWhile isDigitC).reverse
    else String.mk ((rev.dropWhile isDigitC).reverse ++ zfill run.length (natDigits (v - 1)))

/-! ### Generic list-scanning helpers -/

/-- Either `l` has no head, or its head refutes `p`. -/
def headNot (p : Char → Bool) (l : List Char) : Prop :=
  ∀ c, l.head? = some c → p c = false

theorem takeWhile_eq_self_of_all {p : Char → Bool} :
    ∀ l : List Char, (∀ x ∈ l, p x = true) → l.takeWhile p = l := by
  intro l h
  induction l with
  | nil => rfl
  | cons a l ih =>
    rw [List.takeWhile_cons_of_pos (h a (List.mem_cons_self a l)),
      ih (fun x hx => h x (List.mem_cons_of_mem a hx))]

theorem dropWhile_eq_nil_of_all {p : Char → Bool} :
    ∀ l : List Char, (∀ x ∈ l, p x = true) → l.dropWhile p = [] := by
  intro l h
  induction l with
  | nil => rfl
  | cons a l ih =>
    rw [List.dropWhile_cons_of_pos (h a (List.mem_cons_self a l))]
    exact ih (fun x hx => h x (List.mem_cons_of_mem a hx))

theorem takeWhile_append_headNot {p : Char → Bool} (xs ys : List Char)
    (hxs : ∀ x ∈ xs, p x = true) (hys : headNot p ys) :
    (xs ++ ys).takeWhile p = xs ∧ (xs ++ ys).dropWhile p = ys := by
  induction xs with
  | nil =>
    simp only [List.nil_append]
    cases ys with
    | nil => exact ⟨rfl, rfl⟩
    | cons y ys' =>
      have hy : p y = false := hys y rfl
      have hy' : ¬ p y = true := by rw [hy]; exact Bool.false_ne_true
      rw [List.takeWhile_cons_of_neg hy', List.dropWhile_cons_of_neg hy']
      exact ⟨rfl, rfl⟩
  | cons x xs ih =>
    have hx : p x = true := hxs x (List.mem_cons_self x xs)
    have ih' := ih (fun a ha => hxs a (List.mem_cons_of_mem x ha))
    rw [List.cons_append, List.takeWhile_cons_of_pos hx, List.dropWhile_cons_of_pos hx]
    exact ⟨by rw [ih'.1], ih'.2⟩

theorem mem_of_mem_takeWhile {p : Char → Bool} :
    ∀ l : List Char, ∀ x ∈ l.takeWhile p, p x = true := by
  intro l
  induction l with
  | nil => intro x hx; cases hx
  | cons a l ih =>
    intro x hx
    by_cases ha : p a = true
    · rw [List.takeWhile_cons_of_pos ha] at hx
      cases hx with
      | head => exact ha
      | tail _ hx => exact ih x hx
    · rw [List.takeWhile_cons_of_neg ha] at hx
      cases hx

theorem length_dropWhile_le {p : Char → Bool} :
    ∀ l : List Char, (l.dropWhile p).length ≤ l.length := by
  intro l
  induction l with
  | nil => exact Nat.le_refl _
  | cons a l ih =>
    by_cases ha : p a = true
    · rw [List.dropWhile_cons_of_pos ha]
      exact Nat.le_trans ih (Nat.le_succ _)
    · rw [List.dropWhile_cons_of_neg ha]

/-- Splitting off the trailing digit run: if `text` decomposes as a prefix
not ending in a digit followed by a digit run, the reversed
`takeWhile`/`dropWhile` pair used by the increment/decrement functions
recovers exactly that decomposition. -/
theorem trailing_run_extract (p run : List Char)
    (hd : ∀ c ∈ run, isDigitC c = true)
    (hp : ∀ c, p.getLast? = some c → isDigitC c = false) :
    (p ++ run).reverse.takeWhile isDigitC = run.reverse ∧
    (p ++ run).reverse.dropWhile isDigitC = p.reverse := by
  rw [List.reverse_append]
  have hrev : ∀ c ∈ run.reverse, isDigitC c = true := by
    intro c hc
    exact hd c (List.mem_reverse.mp hc)
  have hpr : headNot isDigitC p.reverse := by
    intro c hc
    apply hp
    rw [← List.head?_reverse]
    exact hc
  exact takeWhile_append_headNot run.reverse p.reverse hrev hpr

/-- Claim C2, counterexample: with a trailing run present, `increment_digit`
zero-fills to the `digits` argument's width, not to the original run's
width.  On `"file4567"` with `digits = 5` the original run has width 4, so
the claim predicts `"file4568"`, but the code pads to width 5. -/
theorem increment_digit_width_cex :
    increment_digit "file4567" (some 5) = "file04568" ∧
    ("file04568" : String) ≠ "file4568" := by
  exact ⟨by decide, by decide⟩

/-- Claim C2 (amended): for `text = p ++ run` with `run` a non-empty digit
run and `p` not ending in a digit, `increment_digit` replaces `run` by the
incremented value zero-filled to the `digits` argument's width (default 2,
with 0 treated as unset); only when no trailing run exists is a fresh
`"1".zfill(digits)` appended. -/
theorem increment_digit_spec (text : String) (digits : Option Nat) :
    (∀ p run, text.data = p ++ run → run ≠ [] → (∀ c ∈ run, isDigitC c = true) →
      (∀ c, p.getLast? = some c → isDigitC c = false) →
      increment_digit text digits =
        String.mk (p ++ zfill (effectiveDigits digits) (natDigits (digitsVal run + 1)))) ∧
    ((∀ c, text.data.getLast? = some c → isDigitC c = false) →
      increment_digit text digits = String.mk (text.data ++ zfill (effectiveDigits digits) ['1'])) := by
  constructor
  · intro p run hsplit hne hd hp
    have hx := trailing_run_extract p run hd hp
    have hrev : run.reverse.isEmpty = false := by
      cases hr : run.reverse with
      | nil => exact absurd (by simpa using congrArg List.reverse hr) hne
      | cons y ys => rfl
    simp only [increment_digit]
    rw [hsplit, hx.1, hx.2, hrev]
    simp only [Bool.false_eq_true, if_false, List.reverse_reverse]
  · intro hlast
    have htake : text.data.reverse.takeWhile isDigitC = [] := by
      cases hr : text.data.reverse with
      | nil => rfl
      | cons y ys =>
        have hy : isDigitC y = false := by
          apply hlast
          rw [← List.head?_reverse, hr]
          rfl
        rw [List.takeWhile_cons_of_neg (by rw [hy]; exact Bool.false_ne_true)]
    simp only [increment_digit]
    rw [htake]
    rfl

/-- Claim C2, witness: `increment_digit "abc05" = "abc06"` through the
amended specification. -/
theorem increment_digit_spec_app :
    increment_digit "abc05" none = "abc06" := by
  have h := (increment_digit_spec "abc05" none).1 ['a', 'b', 'c'] ['0', '5']
    (by decide) (by decide) (by decide) (by decide)
  exact h.trans (by decide)

/-- Claim C8: `decrement_digit` removes a trailing run of value 0 or 1
outright, decrements larger runs with zero-fill back to the run's original
width, and returns the text unchanged when there is no trailing digit run. -/
theorem decrement_digit_spec (text : String) :
    (∀ p run, text.data = p ++ run → run ≠ [] → (∀ c ∈ run, isDigitC c = true) →
      (∀ c, p.getLast? = some c → isDigitC c = false) →
      (digitsVal run ≤ 1 → decrement_digit text = String.mk p) ∧
      (2 ≤ digitsVal run →
        decrement_digit text = String.mk (p ++ zfill run.length (natDigits (digitsVal run - 1))))) ∧
    ((∀ c, text.data.getLast? = some c → isDigitC c = false) →
      decrement_digit text = text) := by
  constructor
  · intro p run hsplit hne hd hp
    have hx := trailing_run_extract p run hd hp
    have hrev : run.reverse.isEmpty = false := by
      cases hr : run.reverse with
      | nil => exact absurd (by simpa using congrArg List.reverse hr) hne
      | cons y ys => rfl
    constructor
    · intro hv
      have hcond : (digitsVal run = 0 || digitsVal run = 1) = true := by
        simp only [Bool.or_eq_true, decide_eq_true_eq]
        omega
      simp only [decrement_digit]
      rw [hsplit, hx.1, hx.2, hrev]
      simp only [Bool.false_eq_true, if_false, List.reverse_reverse]
      rw [hcond]
      rfl
    · intro hv
      have hcond : (digitsVal run = 0 || digitsVal run = 1) = false := by
        simp only [Bool.or_eq_false_iff, decide_eq_false_iff_not]
        omega
      simp only [decrement_digit]
      rw [hsplit, hx.1, hx.2, hrev]
      simp only [Bool.false_eq_true, if_false, List.reverse_reverse]
      rw [hcond]
      rfl
  · intro hlast
    have htake : text.data.reverse.takeWhile isDigitC = [] := by
      cases hr : text.data.reverse with
      | nil => rfl
      | cons y ys =>
        have hy : isDigitC y = false := by
          apply hlast
          rw [← List.head?_reverse, hr]
          rfl
        rw [List.takeWhile_cons_of_neg (by rw [hy]; exact Bool.false_ne_true)]
    simp only [decrement_digit]
    rw [htake]
    rfl

/-- Claim C8, witness: `decrement_digit "data0" = "data"` (a trailing run of
value 0 is removed entirely). -/
theorem decrement_digit_spec_app :
    decrement_digit "data0" = "data" := by
  have h := ((decrement_digit_spec "data0").1 ['d', 'a', 't', 'a'] ['0']
    (by decide) (by decide) (by decide) (by decide)).1 (by decide)
  exact h.trans (by decide)

/-- Claim C10: passing `digits = 0` to `increment_digit` behaves exactly
like the default width 2, because the Python body treats any falsy `digits`
(`None` or `0`) as unset. -/
theorem increment_digit_zero_width_default (text : String) :
    increment_digit text (some 0) = increment_digit text (some 2) := rfl

/-! ### Digit extraction (`get_digits`, `get_digit_by_index`) -/

/-- Scanner for `re.findall(r'\d+', text)`: all maximal digit runs, left to
right (fuel-structured on the list length). -/
def digitRunsAux : Nat → List Char → List (List Char)
  | _, [] => []
  | 0, _ :: _ => []
  | fuel + 1, c :: cs =>
    if isDigitC c then (c :: cs.takeWhile isDigitC) :: digitRunsAux fuel (cs.dropWhile isDigitC)
    else digitRunsAux fuel cs

/-- Function `get_digits` from `lib/naming.py`: the list of maximal digit runs of
the text, as strings. -/
def get_digits (text : String) : List String :=
  (digitRunsAux text.data.length text.data).map String.mk

/-- CPython list indexing `l[i]`: negative indices count from the end, and
an index outside `[-len(l), len(l))` is an `IndexError` (here `none`). -/
def pyIndex {α : Type} (l : List α) (i : Int) : Option α :=
  let j : Int := if i < 0 then i + l.length else i
  if h : 0 ≤ j ∧ j < (l.length : Int) then some (l.get ⟨j.toNat, by omega⟩) else none

/-- Result of `get_digit_by_index`: a digit run, the `[]` "absent" sentinel
returned when the text has no digit runs, or a raised `IndexError`. -/
inductive DigitLookup where
  | value (s : String)
  | absent
  | indexError
deriving DecidableEq

/-- Function `get_digit_by_index` from `lib/naming.py`: `number[index] if number
else []` — the sentinel is only reached when no digit run exists at all;
otherwise Python indexing runs and may raise. -/
def get_digit_by_index (text : String) (index : Int) : DigitLookup :=
  let number := get_digits text
  if number.isEmpty then DigitLookup.absent
  else
    match pyIndex number index with
    | some s => DigitLookup.value s
    | none => DigitLookup.indexError

/-- Claim C9: `get_digit_by_index` returns the absent sentinel exactly when
the text has no digit runs; when runs exist and the index is outside the
Python index range of the run list, it raises `IndexError` instead of
returning the sentinel. -/
theorem get_digit_by_index_spec (text : String) (i : Int) :
    (get_digit_by_index text i = DigitLookup.absent ↔ get_digits text = []) ∧
    (get_digits text ≠ [] →
      ((get_digits text).length ≤ i ∨ i < -((get_digits text).length : Int)) →
      get_digit_by_index text i = DigitLookup.indexError) := by
  constructor
  · constructor
    · intro h
      by_cases he : (get_digits text).isEmpty = true
      · exact List.isEmpty_iff.mp he
      · exfalso
        simp only [get_digit_by_index, he] at h
        simp only [Bool.false_eq_true, if_false] at h
        cases hpi : pyIndex (get_digits text) i with
        | some s => rw [hpi] at h; cases h
        | none => rw [hpi] at h; cases h
    · intro h
      simp only [get_digit_by_index, h]
      rfl
  · intro hne hout
    have he : (get_digits text).isEmpty = false := by
      cases hg : get_digits text with
      | nil => exact absurd hg hne
      | cons a l => rfl
    have hlen : 1 ≤ (get_digits text).length := by
      cases hg : get_digits text with
      | nil => exact absurd hg hne
      | cons a l => simp
    have hpi : pyIndex (get_digits text) i = none := by
      simp only [pyIndex]
      rw [dif_neg]
      intro hcon
      by_cases hneg : i < 0
      · rw [if_pos hneg] at hcon
        omega
      · rw [if_neg hneg] at hcon
        omega
    simp only [get_digit_by_index, he, Bool.false_eq_true, if_false, hpi]

/-- Claim C9, witness: `"a1b2"` has two digit runs, and index 5 raises
`IndexError` rather than returning the absent sentinel. -/
theorem get_digit_by_index_spec_app :
    get_digits "a1b2" ≠ [] ∧ get_digit_by_index "a1b2" 5 = DigitLookup.indexError := by
  exact ⟨by decide, (get_digit_by_index_spec "a1b2" 5).2 (by decide) (by decide)⟩

/-! ### Tokenizer (`split_text`) -/

/-- Is the list empty or headed by a whitespace character?  Models the
`(?=\s|$)` lookahead of the tokenizer regex. -/
def atSpaceOrEnd : List Char → Bool
  | [] => true
  | c :: _ => isSpaceC c

/-- Is the list headed by `'_'` or `'-'`?  Models the `(?=[_-])` lookahead. -/
def headIsSep : List Char → Bool
  | [] => false
  | c :: _ => c == '_' || c == '-'

/-- One match attempt of the tokenizer regex
`[A-Z]?[a-z]+|[A-Z]+(?=\s|$)|[0-9]+|[a-z]+|[A-Za-z]+(?=[_-])` at the head
of the input: the alternatives are tried in order, each one greedy (the
character class each alternative ends in is disjoint from what must follow,
so greedy matching coincides with `re`'s backtracking).  Returns the token
and the remaining input, or `none` when no alternative matches here. -/
def matchToken : List Char → Option (List Char × List Char)
  | [] => none
  | c :: cs =>
    if isUpperAZ c && !(cs.takeWhile isLowerAZ).isEmpty then
      some (c :: cs.takeWhile isLowerAZ, cs.dropWhile isLowerAZ)
    else if isLowerAZ c then
      some ((c :: cs).takeWhile isLowerAZ, (c :: cs).dropWhile isLowerAZ)
    else if isUpperAZ c && atSpaceOrEnd ((c :: cs).dropWhile isUpperAZ) then
      some ((c :: cs).takeWhile isUpperAZ, (c :: cs).dropWhile isUpperAZ)
    else if isDigitC c then
      some ((c :: cs).takeWhile isDigitC, (c :: cs).dropWhile isDigitC)
    else if isLowerAZ c then
      some ((c :: cs).takeWhile isLowerAZ, (c :: cs).dropWhile isLowerAZ)
    else if isAlphaC c && headIsSep ((c :: cs).dropWhile isAlphaC) then
      some ((c :: cs).takeWhile isAlphaC, (c :: cs).dropWhile isAlphaC)
    else none

/-- The `re.findall` scan loop: emit a token where a match succeeds, otherwise
skip one character (fuel-structured on the list length). -/
def scanAux : Nat → List Char → List (List Char)
  | _, [] => []
  | 0, _ :: _ => []
  | fuel + 1, c :: cs =>
    match matchToken (c :: cs) with
    | some (t, r) => t :: scanAux fuel r
    | none => scanAux fuel cs

/-- Tokenize a character list with the tokenizer regex of `split_text`. -/
def scan (l : List Char) : List (List Char) := scanAux l.length l

/-- Function `split_text` from `lib/naming.py`:
`re.findall(r'[A-Z]?[a-z]+|[A-Z]+(?=\s|$)|[0-9]+|[a-z]+|[A-Za-z]+(?=[_-])', text)`. -/
def split_text (text : String) : List String := (scan text.data).map String.mk

example : split_text "camelCaseExample" = ["camel", "Case", "Example"] := by decide
example : split_text "Pascal32CaseText" = ["Pascal", "32", "Case", "Text"] := by decide
example : split_text "singleword" = ["singleword"] := by decide
example : split_text "Another_Example-Here99" = ["Another", "Example", "Here", "99"] := by decide
example : split_text "myVAR" = ["my", "VAR"] := by decide
example : split_text "aBC_x" = ["a", "BC", "x"] := by decide
example : split_text "xABc_d" = ["x", "ABc", "d"] := by decide
example : split_text "___" = [] := by decide
example : split_text "abcA12" = ["abc", "12"] := by decide
example : split_text "name of.var12iable" = ["name", "of", "var", "12", "iable"] := by decide

/-! ### Case converters -/

/-- ASCII lowering of one character, Python `str.lower` per character. -/
def toLowerC (c : Char) : Char := if isUpperAZ c then Char.ofNat (c.toNat + 32) else c

/-- ASCII uppercasing of one character, Python `str.upper` per character. -/
def toUpperC (c : Char) : Char := if isLowerAZ c then Char.ofNat (c.toNat - 32) else c

/-- Python `str.capitalize`: first character uppercased, all remaining
characters lowercased. -/
def capitalizeL : List Char → List Char
  | [] => []
  | c :: cs => toUpperC c :: cs.map toLowerC

/-- Function `remove_numbers` from `lib/naming.py`: `re.sub(r'\d+', '', text)`,
i.e. delete every digit character. -/
def remove_numbers (text : String) : String :=
  String.mk (text.data.filter (fun c => !isDigitC c))

/-- The fault raised by Python when `splited_text[0]` indexes an empty
list in `to_camel_case`. -/
inductive PyError where
  | indexError
deriving DecidableEq

/-- Function `to_camel_case` from `lib/naming.py`: lowercase the first token, append
`word.capitalize()` for every later token, optionally strip digits.  The
`splited_text[0]` access faults on an empty tokenization, modelled with
`Except`. -/
def to_camel_case (text : String) (delete_numbers : Bool) : Except PyError String :=
  match split_text text with
  | [] => Except.error PyError.indexError
  | t :: ts =>
    let camel := String.mk (ts.foldl (fun acc w => acc ++ capitalizeL w.data) (t.data.map toLowerC))
    Except.ok (if delete_numbers then remove_numbers camel else camel)

/-- Function `to_pascal_case` from `lib/naming.py`: start from the empty string and
append `word.capitalize()` for every token (total: no indexing occurs). -/
def to_pascal_case (text : String) (delete_numbers : Bool) : String :=
  let pascal := String.mk ((split_text text).foldl (fun acc w => acc ++ capitalizeL w.data) [])
  if delete_numbers then remove_numbers pascal else pascal

/-- Python `sep.join(words)` on character lists. -/
def joinSep (sep : Char) : List (List Char) → List Char
  | [] => []
  | [w] => w
  | w :: ws => w ++ sep :: joinSep sep ws

/-- The snake conversion pass of `to_snake_case`: lowercase every token and
join with `'_'`. -/
def to_snake_core (text : String) : String :=
  String.mk (joinSep '_' ((split_text text).map (fun w => w.data.map toLowerC)))

/-- Function `to_snake_case` from `lib/naming.py`; under `delete_numbers` the digits
are removed from the joined result and the conversion is re-run once. -/
def to_snake_case (text : String) (delete_numbers : Bool) : String :=
  if delete_numbers then to_snake_core (remove_numbers (to_snake_core text))
  else to_snake_core text

/-- The kebab conversion pass of `to_kebab_case`: lowercase every token and
join with `'-'`. -/
def to_kebab_core (text : String) : String :=
  String.mk (joinSep '-' ((split_text text).map (fun w => w.data.map toLowerC)))

/-- Function `to_kebab_case` from `lib/naming.py`; same re-run structure as
`to_snake_case`. -/
def to_kebab_case (text : String) (delete_numbers : Bool) : String :=
  if delete_numbers then to_kebab_core (remove_numbers (to_kebab_core text))
  else to_kebab_core text

example : to_camel_case "name_of_variable" false = Except.ok "nameOfVariable" := rfl
example : to_camel_case "NameOfVariable" false = Except.ok "nameOfVariable" := rfl
example : to_pascal_case "name_of_variable" false = "NameOfVariable" := by decide
example : to_snake_case "nameOfVariable" false = "name_of_variable" := by decide
example : to_snake_case "name_ofVariable" false = "name_of_variable" := by decide
example : to_snake_case "name of.var12iable" true = "name_of_var_iable" := by decide
example : to_kebab_case "name_ofVariable" false = "name-of-variable" := by decide
example : to_kebab_case "name of.var12iable" true = "name-of-var-iable" := by decide
example : to_camel_case "name-of-variable_32" true = Except.ok "nameOfVariable" := rfl
example : to_pascal_case "name of.var12iable" true = "NameOfVarIable" := by decide

/-- Claim C3, counterexample: on `"___"` (which tokenizes to zero tokens)
`to_camel_case` propagates the index fault of `splited_text[0]` — there is
no `EmptyInputError` anywhere — while `to_pascal_case`, `to_snake_case`
and `to_kebab_case` simply return the empty string, i.e. they return
normally. -/
theorem case_converters_empty_cex :
    split_text "___" = [] ∧
    to_camel_case "___" false = Except.error PyError.indexError ∧
    to_pascal_case "___" false = "" ∧
    to_snake_case "___" false = "" ∧
    to_kebab_case "___" false = "" := by
  exact ⟨by decide, rfl, by decide, by decide, by decide⟩

/-- Claim C3 (amended): on empty-tokenization input `to_camel_case` raises
the unchecked index fault and the other three converters return `""`
normally; on input with at least one token `to_camel_case` returns
normally. -/
theorem case_converters_empty_tokens (text : String) (d : Bool) :
    (split_text text = [] →
      to_camel_case text d = Except.error PyError.indexError ∧
      to_pascal_case text d = "" ∧
      to_snake_case text d = "" ∧
      to_kebab_case text d = "") ∧
    (split_text text ≠ [] → ∃ r, to_camel_case text d = Except.ok r) := by
  constructor
  · intro h
    refine ⟨?_, ?_, ?_, ?_⟩
    · unfold to_camel_case
      rw [h]
    · unfold to_pascal_case
      rw [h]
      cases d <;> rfl
    · unfold to_snake_case to_snake_core
      rw [h]
      cases d <;> rfl
    · unfold to_kebab_case to_kebab_core
      rw [h]
      cases d <;> rfl
  · intro h
    cases hs : split_text text with
    | nil => exact absurd hs h
    | cons t ts =>
      unfold to_camel_case
      rw [hs]
      exact ⟨_, rfl⟩

/-- Claim C3, witness: the amended statement applied at `"___"`. -/
theorem case_converters_empty_tokens_app :
    to_camel_case "___" false = Except.error PyError.indexError ∧
    to_snake_case "___" false = "" := by
  have h := (case_converters_empty_tokens "___" false).1 (by decide)
  exact ⟨h.1, h.2.2.1⟩

/-- Claim C7, counterexample: later tokens are passed through Python
`str.capitalize`, which lowercases everything after the first character:
`to_camel_case "myVAR"` yields `"myVar"`, not `"myVAR"` as the claim's
"remaining characters unchanged" reading predicts. -/
theorem to_camel_case_capitalize_cex :
    split_text "myVAR" = ["my", "VAR"] ∧
    to_camel_case "myVAR" false = Except.ok "myVar" ∧
    ("myVar" : String) ≠ "myVAR" := by
  exact ⟨by decide, rfl, by decide⟩

/-- Folding the capitalize-append loop of `to_camel_case`/`to_pascal_case`
is concatenation of the capitalized tokens. -/
theorem foldl_capitalize_append (ts : List String) :
    ∀ init : List Char,
      ts.foldl (fun acc w => acc ++ capitalizeL w.data) init
        = init ++ (ts.map (fun w => capitalizeL w.data)).flatten := by
  induction ts with
  | nil => intro init; simp
  | cons w ws ih =>
    intro init
    simp only [List.foldl_cons, List.map_cons, List.flatten_cons]
    rw [ih, List.append_assoc]

/-- Claim C7 (amended): on input with at least one token, `to_camel_case`
(no digit deletion) is the first token fully lowercased followed by the
later tokens each transformed by Python `capitalize` — first character
uppercased and the *remaining characters lowercased* — concatenated with
no separator. -/
theorem to_camel_case_shape (text : String) (t : String) (ts : List String)
    (h : split_text text = t :: ts) :
    to_camel_case text false =
      Except.ok (String.mk (t.data.map toLowerC ++ (ts.map (fun w => capitalizeL w.data)).flatten)) := by
  unfold to_camel_case
  rw [h]
  simp only [foldl_capitalize_append, Bool.false_eq_true, if_false]

/-- Claim C7, witness: the amended shape applied at `"myVAR"`. -/
theorem to_camel_case_shape_app :
    to_camel_case "myVAR" false =
      Except.ok (String.mk ("my".data.map toLowerC ++
        ([("VAR" : String)].map (fun w => capitalizeL w.data)).flatten)) :=
  to_camel_case_shape "myVAR" "my" ["VAR"] (by decide)

/-- Claim C4, counterexample: `to_camel_case` and `to_pascal_case` are not
idempotent.  `to_camel_case "abc_a_12" = "abcA12"`, but re-converting drops
the lone capital `A` (a capital immediately followed by a digit matches no
tokenizer alternative), giving `"abc12"`; similarly for PascalCase. -/
theorem camel_pascal_not_idempotent_cex :
    to_camel_case "abc_a_12" false = Except.ok "abcA12" ∧
    to_camel_case "abcA12" false = Except.ok "abc12" ∧
    ("abc12" : String) ≠ "abcA12" ∧
    to_pascal_case "a_12" false = "A12" ∧
    to_pascal_case "A12" false = "12" ∧
    ("12" : String) ≠ "A12" := by
  exact ⟨rfl, rfl, by decide, by decide, by decide, by decide⟩

/-! ### Character-class arithmetic -/

theorem isLowerAZ_iff {c : Char} : isLowerAZ c = true ↔ 97 ≤ c.toNat ∧ c.toNat ≤ 122 := by
  simp [isLowerAZ, Bool.and_eq_true, decide_eq_true_eq]

theorem isUpperAZ_iff {c : Char} : isUpperAZ c = true ↔ 65 ≤ c.toNat ∧ c.toNat ≤ 90 := by
  simp [isUpperAZ, Bool.and_eq_true, decide_eq_true_eq]

theorem isDigitC_iff {c : Char} : isDigitC c = true ↔ 48 ≤ c.toNat ∧ c.toNat ≤ 57 := by
  simp [isDigitC, Bool.and_eq_true, decide_eq_true_eq]

theorem not_upper_of_lower {c : Char} (h : isLowerAZ c = true) : isUpperAZ c = false := by
  rw [isLowerAZ_iff] at h
  rw [Bool.eq_false_iff]
  intro h'
  rw [isUpperAZ_iff] at h'
  omega

theorem not_upper_of_digit {c : Char} (h : isDigitC c = true) : isUpperAZ c = false := by
  rw [isDigitC_iff] at h
  rw [Bool.eq_false_iff]
  intro h'
  rw [isUpperAZ_iff] at h'
  omega

theorem not_lower_of_digit {c : Char} (h : isDigitC c = true) : isLowerAZ c = false := by
  rw [isDigitC_iff] at h
  rw [Bool.eq_false_iff]
  intro h'
  rw [isLowerAZ_iff] at h'
  omega

theorem not_digit_of_lower {c : Char} (h : isLowerAZ c = true) : isDigitC c = false := by
  rw [isLowerAZ_iff] at h
  rw [Bool.eq_false_iff]
  intro h'
  rw [isDigitC_iff] at h'
  omega

theorem toNat_ofNat_lt {n : Nat} (h : n < 55296) : (Char.ofNat n).toNat = n := by
  rw [Char.ofNat, dif_pos (Or.inl h)]
  rfl

theorem toLowerC_eq_self {c : Char} (h : isUpperAZ c = false) : toLowerC c = c := by
  rw [toLowerC, h]
  rfl

theorem toLowerC_lower {c : Char} (h : isAlphaC c = true) : isLowerAZ (toLowerC c) = true := by
  rw [isAlphaC, Bool.or_eq_true] at h
  cases h with
  | inl hu =>
    rw [toLowerC, hu]
    simp only [if_true]
    rw [isUpperAZ_iff] at hu
    rw [isLowerAZ_iff, toNat_ofNat_lt (by omega)]
    omega
  | inr hl =>
    rw [toLowerC_eq_self (not_upper_of_lower hl)]
    exact hl

theorem map_toLowerC_fix {w : List Char}
    (h : ∀ c ∈ w, isLowerAZ c = true ∨ isDigitC c = true) : w.map toLowerC = w := by
  induction w with
  | nil => rfl
  | cons c cs ih =>
    have hc : isUpperAZ c = false := by
      cases h c (List.mem_cons_self c cs) with
      | inl hl => exact not_upper_of_lower hl
      | inr hd => exact not_upper_of_digit hd
    rw [List.map_cons, toLowerC_eq_self hc, ih (fun x hx => h x (List.mem_cons_of_mem c hx))]

/-! ### Shape of tokenizer output -/

/-- Every token emitted by one step of the tokenizer is non-empty and is
either a pure letter run or a pure digit run (no alternative of the regex
mixes the two classes). -/
theorem matchToken_shape {l t r : List Char} (h : matchToken l = some (t, r)) :
    t ≠ [] ∧ ((∀ c ∈ t, isAlphaC c = true) ∨ (∀ c ∈ t, isDigitC c = true)) := by
  cases l with
  | nil => cases h
  | cons c cs =>
    simp only [matchToken] at h
    by_cases b1 : (isUpperAZ c && !(cs.takeWhile isLowerAZ).isEmpty) = true
    · rw [if_pos b1] at h
      injection h with h'
      injection h' with ht hr
      subst ht
      refine ⟨List.cons_ne_nil _ _, Or.inl ?_⟩
      intro x hx
      cases hx with
      | head =>
        rw [Bool.and_eq_true] at b1
        rw [isAlphaC, b1.1, Bool.true_or]
      | tail _ hx =>
        rw [isAlphaC, mem_of_mem_takeWhile cs x hx, Bool.or_true]
    · rw [if_neg b1] at h
      by_cases b2 : isLowerAZ c = true
      · rw [if_pos b2] at h
        injection h with h'
        injection h' with ht hr
        subst ht
        rw [List.takeWhile_cons_of_pos b2]
        refine ⟨List.cons_ne_nil _ _, Or.inl ?_⟩
        intro x hx
        cases hx with
        | head => rw [isAlphaC, b2, Bool.or_true]
        | tail _ hx => rw [isAlphaC, mem_of_mem_takeWhile cs x hx, Bool.or_true]
      · rw [if_neg b2] at h
        by_cases b3 : (isUpperAZ c && atSpaceOrEnd ((c :: cs).dropWhile isUpperAZ)) = true
        · rw [if_pos b3] at h
          injection h with h'
          injection h' with ht hr
          subst ht
          rw [Bool.and_eq_true] at b3
          rw [List.takeWhile_cons_of_pos b3.1]
          refine ⟨List.cons_ne_nil _ _, Or.inl ?_⟩
          intro x hx
          cases hx with
          | head => rw [isAlphaC, b3.1, Bool.true_or]
          | tail _ hx => rw [isAlphaC, mem_of_mem_takeWhile cs x hx, Bool.true_or]
        · rw [if_neg b3] at h
          by_cases b4 : isDigitC c = true
          · rw [if_pos b4] at h
            injection h with h'
            injection h' with ht hr
            subst ht
            rw [List.takeWhile_cons_of_pos b4]
            refine ⟨List.cons_ne_nil _ _, Or.inr ?_⟩
            intro x hx
            cases hx with
            | head => exact b4
            | tail _ hx => exact mem_of_mem_takeWhile cs x hx
          · rw [if_neg b4] at h
            rw [if_neg b2] at h
            by_cases b6 : (isAlphaC c && headIsSep ((c :: cs).dropWhile isAlphaC)) = true
            · rw [if_pos b6] at h
              injection h with h'
              injection h' with ht hr
              subst ht
              rw [Bool.and_eq_true] at b6
              rw [List.takeWhile_cons_of_pos b6.1]
              refine ⟨List.cons_ne_nil _ _, Or.inl ?_⟩
              intro x hx
              cases hx with
              | head => exact b6.1
              | tail _ hx => exact mem_of_mem_takeWhile cs x hx
            · rw [if_neg b6] at h
              cases h

/-- Every token of a full tokenizer run is non-empty and a pure letter run
or a pure digit run. -/
theorem scanAux_shape :
    ∀ fuel l t, t ∈ scanAux fuel l →
      t ≠ [] ∧ ((∀ c ∈ t, isAlphaC c = true) ∨ (∀ c ∈ t, isDigitC c = true)) := by
  intro fuel
  induction fuel with
  | zero =>
    intro l t ht
    cases l with
    | nil => cases ht
    | cons c cs => cases ht
  | succ f ih =>
    intro l t ht
    cases l with
    | nil => cases ht
    | cons c cs =>
      simp only [scanAux] at ht
      cases hm : matchToken (c :: cs) with
      | some pr =>
        rw [hm] at ht
        cases ht with
        | head => exact matchToken_shape hm
        | tail _ ht => exact ih pr.2 t ht
      | none =>
        rw [hm] at ht
        exact ih cs t ht

/-! ### Tokenizing a lower/digit join -/

/-- At a lowercase-headed block followed by material that does not continue
the run, the tokenizer emits exactly the block (regex alternative
`[a-z]+`). -/
theorem matchToken_lower_block (c : Char) (w rest : List Char)
    (hc : isLowerAZ c = true)
    (hw : ∀ x ∈ w, isLowerAZ x = true)
    (hrest : headNot isLowerAZ rest) :
    matchToken (c :: (w ++ rest)) = some (c :: w, rest) := by
  have hsplit := takeWhile_append_headNot w rest hw hrest
  simp only [matchToken, not_upper_of_lower hc, Bool.false_and, Bool.false_eq_true, if_false,
    hc, eq_self_iff_true, if_true]
  rw [List.takeWhile_cons_of_pos hc, List.dropWhile_cons_of_pos hc, hsplit.1, hsplit.2]

/-- At a digit-headed block followed by material that does not continue the
run, the tokenizer emits exactly the block (regex alternative `[0-9]+`). -/
theorem matchToken_digit_block (c : Char) (w rest : List Char)
    (hc : isDigitC c = true)
    (hw : ∀ x ∈ w, isDigitC x = true)
    (hrest : headNot isDigitC rest) :
    matchToken (c :: (w ++ rest)) = some (c :: w, rest) := by
  have hsplit := takeWhile_append_headNot w rest hw hrest
  simp only [matchToken, not_upper_of_digit hc, not_lower_of_digit hc, Bool.false_and,
    Bool.false_eq_true, if_false, hc, eq_self_iff_true, if_true]
  rw [List.takeWhile_cons_of_pos hc, List.dropWhile_cons_of_pos hc, hsplit.1, hsplit.2]

/-- The separator characters `'_'` and `'-'` match no tokenizer
alternative: the scan loop skips them. -/
theorem matchToken_sep_none {c : Char} (cs : List Char) (hc : c = '_' ∨ c = '-') :
    matchToken (c :: cs) = none := by
  have hu : isUpperAZ c = false := by rcases hc with rfl | rfl <;> decide
  have hl : isLowerAZ c = false := by rcases hc with rfl | rfl <;> decide
  have hd : isDigitC c = false := by rcases hc with rfl | rfl <;> decide
  have ha : isAlphaC c = false := by rw [isAlphaC, hu, hl]; rfl
  simp only [matchToken, hu, hl, hd, ha, Bool.false_and, Bool.false_eq_true, if_false]

/-- Scanning a separator-join of non-empty all-lowercase or all-digit
blocks recovers exactly the blocks: the tokenizer is a left inverse of
`sep.join` on the output shape of the snake/kebab converters. -/
theorem scanAux_joinSep {sep : Char} (hsep : sep = '_' ∨ sep = '-') :
    ∀ (ws : List (List Char)) (fuel : Nat),
      (∀ w ∈ ws, w ≠ [] ∧ ((∀ c ∈ w, isLowerAZ c = true) ∨ (∀ c ∈ w, isDigitC c = true))) →
      (joinSep sep ws).length ≤ fuel →
      scanAux fuel (joinSep sep ws) = ws := by
  intro ws
  induction ws with
  | nil =>
    intro fuel _ _
    cases fuel <;> rfl
  | cons w ws ih =>
    intro fuel hshape hfuel
    obtain ⟨hwne, hwsh⟩ := hshape w (List.mem_cons_self w ws)
    cases w with
    | nil => exact absurd rfl hwne
    | cons c w0 =>
      cases ws with
      | nil =>
        have hj : joinSep sep [c :: w0] = c :: w0 := rfl
        rw [hj] at hfuel ⊢
        cases fuel with
        | zero => simp at hfuel
        | succ f =>
          have hmt : matchToken (c :: (w0 ++ [])) = some (c :: w0, []) := by
            cases hwsh with
            | inl hlow =>
              exact matchToken_lower_block c w0 []
                (hlow c (List.mem_cons_self c w0))
                (fun x hx => hlow x (List.mem_cons_of_mem c hx))
                (fun d hd => by simp at hd)
            | inr hdig =>
              exact matchToken_digit_block c w0 []
                (hdig c (List.mem_cons_self c w0))
                (fun x hx => hdig x (List.mem_cons_of_mem c hx))
                (fun d hd => by simp at hd)
          rw [List.append_nil] at hmt
          simp only [scanAux, hmt]
      | cons w1 ws' =>
        have hj : joinSep sep ((c :: w0) :: w1 :: ws') =
            c :: (w0 ++ sep :: joinSep sep (w1 :: ws')) := rfl
        rw [hj] at hfuel ⊢
        have hlen : w0.length + (joinSep sep (w1 :: ws')).length + 2 ≤ fuel := by
          simp only [List.length_cons, List.length_append] at hfuel
          omega
        cases fuel with
        | zero => omega
        | succ f =>
          have hmt : matchToken (c :: (w0 ++ sep :: joinSep sep (w1 :: ws'))) =
              some (c :: w0, sep :: joinSep sep (w1 :: ws')) := by
            have hrest : ∀ p : Char → Bool, p sep = false →
                headNot p (sep :: joinSep sep (w1 :: ws')) := by
              intro p hp d hd
              injection hd with hd
              rw [← hd]
              exact hp
            cases hwsh with
            | inl hlow =>
              refine matchToken_lower_block c w0 _
                (hlow c (List.mem_cons_self c w0))
                (fun x hx => hlow x (List.mem_cons_of_mem c hx))
                (hrest isLowerAZ ?_)
              rcases hsep with rfl | rfl <;> decide
            | inr hdig =>
              refine matchToken_digit_block c w0 _
                (hdig c (List.mem_cons_self c w0))
                (fun x hx => hdig x (List.mem_cons_of_mem c hx))
                (hrest isDigitC ?_)
              rcases hsep with rfl | rfl <;> decide
          simp only [scanAux, hmt]
          cases f with
          | zero => omega
          | succ g =>
            simp only [scanAux, matchToken_sep_none _ hsep]
            rw [ih g (fun x hx => hshape x (List.mem_cons_of_mem _ hx)) (by omega)]

theorem map_eq_self_of_mem {α : Type} {f : α → α} :
    ∀ X : List α, (∀ w ∈ X, f w = w) → X.map f = X := by
  intro X h
  induction X with
  | nil => rfl
  | cons a X ih =>
    rw [List.map_cons, h a (List.mem_cons_self a X),
      ih (fun w hw => h w (List.mem_cons_of_mem a hw))]

/-- The lowercased tokens produced inside the snake/kebab converters are
non-empty and all-lowercase or all-digit. -/
theorem lowered_shape (l : List Char) :
    ∀ w ∈ (scan l).map (fun t => t.map toLowerC),
      w ≠ [] ∧ ((∀ c ∈ w, isLowerAZ c = true) ∨ (∀ c ∈ w, isDigitC c = true)) := by
  intro w hw
  rw [List.mem_map] at hw
  obtain ⟨t, ht, rfl⟩ := hw
  obtain ⟨htne, htsh⟩ := scanAux_shape l.length l t ht
  constructor
  · cases t with
    | nil => exact absurd rfl htne
    | cons a t0 => simp
  · cases htsh with
    | inl halpha =>
      left
      intro c hc
      rw [List.mem_map] at hc
      obtain ⟨x, hx, rfl⟩ := hc
      exact toLowerC_lower (halpha x hx)
    | inr hdig =>
      right
      intro c hc
      rw [List.mem_map] at hc
      obtain ⟨x, hx, rfl⟩ := hc
      rw [toLowerC_eq_self (not_upper_of_digit (hdig x hx))]
      exact hdig x hx

/-- Scanning the join of the lowercased tokens of any input recovers the
tokens. -/
theorem scan_joinSep_lowered {sep : Char} (hsep : sep = '_' ∨ sep = '-') (l : List Char) :
    scan (joinSep sep ((scan l).map (fun t => t.map toLowerC)))
      = (scan l).map (fun t => t.map toLowerC) :=
  scanAux_joinSep hsep _ _ (lowered_shape l) (Nat.le_refl _)

/-- Lowercasing the already-lowercased tokens changes nothing. -/
theorem lowered_fix (l : List Char) :
    ((scan l).map (fun t => t.map toLowerC)).map (fun t => t.map toLowerC)
      = (scan l).map (fun t => t.map toLowerC) := by
  apply map_eq_self_of_mem
  intro w hw
  obtain ⟨_, hsh⟩ := lowered_shape l w hw
  apply map_toLowerC_fix
  intro c hc
  cases hsh with
  | inl h => exact Or.inl (h c hc)
  | inr h => exact Or.inr (h c hc)

/-- The token-lowering map of the converters, pushed through `split_text`
down to the character-list level. -/
theorem split_text_map_lower (X : List Char) :
    (split_text (String.mk X)).map (fun w => w.data.map toLowerC)
      = (scan X).map (fun t => t.map toLowerC) := by
  simp only [split_text, List.map_map]
  rfl

theorem to_snake_core_idem (s : String) :
    to_snake_core (to_snake_core s) = to_snake_core s := by
  obtain ⟨l⟩ := s
  unfold to_snake_core
  rw [split_text_map_lower l, split_text_map_lower (joinSep '_' ((scan l).map (fun t => t.map toLowerC))),
    scan_joinSep_lowered (Or.inl rfl) l, lowered_fix l]

theorem to_kebab_core_idem (s : String) :
    to_kebab_core (to_kebab_core s) = to_kebab_core s := by
  obtain ⟨l⟩ := s
  unfold to_kebab_core
  rw [split_text_map_lower l, split_text_map_lower (joinSep '-' ((scan l).map (fun t => t.map toLowerC))),
    scan_joinSep_lowered (Or.inr rfl) l, lowered_fix l]

/-- Claim C4 (amended): `to_snake_case` and `to_kebab_case` without digit
deletion are idempotent on every input (their output is a `'_'`/`'-'` join
of non-empty all-lowercase or all-digit tokens, which re-tokenizes to
exactly those tokens); `to_camel_case` and `to_pascal_case` are *not*
idempotent in general (see the counterexample). -/
theorem snake_kebab_idempotent (s : String) :
    to_snake_case (to_snake_case s false) false = to_snake_case s false ∧
    to_kebab_case (to_kebab_case s false) false = to_kebab_case s false := by
  constructor
  · show to_snake_core (to_snake_core s) = to_snake_core s
    exact to_snake_core_idem s
  · show to_kebab_core (to_kebab_core s) = to_kebab_core s
    exact to_kebab_core_idem s

/-! ### Case-style classification (`is_*_case`, `get_case_style`) -/

/-- Matcher for `([A-Z][a-z0-9]*)*` anchored at end of input: each group
starts with one uppercase letter and greedily absorbs `[a-z0-9]*`
(fuel-structured; the group start `[A-Z]` is disjoint from `[a-z0-9]`, so
greedy matching equals the regex). -/
def camelTailAux : Nat → List Char → Bool
  | _, [] => true
  | 0, _ :: _ => false
  | fuel + 1, c :: cs => isUpperAZ c && camelTailAux fuel (cs.dropWhile isLowDig)

/-- Function `is_camel_case` from `lib/naming.py`:
`re.fullmatch(r"^[a-z]+([A-Z][a-z0-9]*)*$", text)`. -/
def is_camel_case (text : String) : Bool :=
  !(text.data.takeWhile isLowerAZ).isEmpty &&
    camelTailAux text.data.length (text.data.dropWhile isLowerAZ)

/-- Function `is_pascal_case` from `lib/naming.py`:
`re.fullmatch(r"^[A-Z][a-z0-9]*([A-Z][a-z0-9]*)*$", text)`, i.e. one or
more uppercase-led groups. -/
def is_pascal_case (text : String) : Bool :=
  !text.data.isEmpty && camelTailAux text.data.length text.data

/-- Matcher for `((sep)[a-z0-9]+)*` anchored at end of input: each segment
is the separator followed by a non-empty `[a-z0-9]+` run. -/
def snakeTailAux (sep : Char) : Nat → List Char → Bool
  | _, [] => true
  | 0, _ :: _ => false
  | fuel + 1, c :: cs =>
    c == sep && !(cs.takeWhile isLowDig).isEmpty && snakeTailAux sep fuel (cs.dropWhile isLowDig)

/-- Function `is_snake_case` from `lib/naming.py`:
`re.fullmatch(r"^[a-z]+(_[a-z0-9]+)*$", text)`. -/
def is_snake_case (text : String) : Bool :=
  !(text.data.takeWhile isLowerAZ).isEmpty &&
    snakeTailAux '_' text.data.length (text.data.dropWhile isLowerAZ)

/-- Function `is_kebab_case` from `lib/naming.py`:
`re.fullmatch(r"^[a-z]+(-[a-z0-9]+)*$", text)`. -/
def is_kebab_case (text : String) : Bool :=
  !(text.data.takeWhile isLowerAZ).isEmpty &&
    snakeTailAux '-' text.data.length (text.data.dropWhile isLowerAZ)

/-- Function `get_case_style` from `lib/naming.py`: the four grammar checks in fixed
priority order, `"unknown"` when none matches. -/
def get_case_style (text : String) : String :=
  if is_camel_case text then "camelCase"
  else if is_pascal_case text then "PascalCase"
  else if is_snake_case text then "snake_case"
  else if is_kebab_case text then "kebab-case"
  else "unknown"

example : is_camel_case "nameOfVariable" = true := by decide
example : is_camel_case "nameOfVariable1" = true := by decide
example : is_camel_case "NameOfVariable" = false := by decide
example : is_camel_case "name_of_variable" = false := by decide
example : is_pascal_case "NameOfVariable" = true := by decide
example : is_pascal_case "NameOfVariable1" = true := by decide
example : is_pascal_case "Name_of_variable" = false := by decide
example : is_pascal_case "nameOfVariable" = false := by decide
example : is_snake_case "name_of_variable" = true := by decide
example : is_snake_case "name_of_variable1" = true := by decide
example : is_snake_case "Name_of_variable" = false := by decide
example : is_snake_case "nameOfVariable" = false := by decide
example : is_kebab_case "name-of-variable" = true := by decide
example : is_kebab_case "name-of-variable1" = true := by decide
example : is_kebab_case "Name-of-variable" = false := by decide
example : is_kebab_case "nameOfVariable" = false := by decide
example : get_case_style "nameOfVariable" = "camelCase" := by decide
example : get_case_style "NameOfVariable" = "PascalCase" := by decide
example : get_case_style "name_of_variable" = "snake_case" := by decide
example : get_case_style "name-of-variable" = "kebab-case" := by decide
example : get_case_style "unknown Style" = "unknown" := by decide

theorem camelTailAux_nil : ∀ fuel, camelTailAux fuel [] = true := by
  intro fuel
  cases fuel <;> rfl

theorem snakeTailAux_nil (sep : Char) : ∀ fuel, snakeTailAux sep fuel [] = true := by
  intro fuel
  cases fuel <;> rfl

theorem camelTailAux_head_upper {fuel : Nat} {c : Char} {cs : List Char}
    (h : camelTailAux fuel (c :: cs) = true) : isUpperAZ c = true := by
  cases fuel with
  | zero => cases h
  | succ f =>
    simp only [camelTailAux, Bool.and_eq_true] at h
    exact h.1

theorem snakeTailAux_head_sep {sep : Char} {fuel : Nat} {c : Char} {cs : List Char}
    (h : snakeTailAux sep fuel (c :: cs) = true) : c = sep := by
  cases fuel with
  | zero => cases h
  | succ f =>
    simp only [snakeTailAux, Bool.and_eq_true] at h
    exact eq_of_beq h.1.1

theorem lead_head_lower {l : List Char} (h : (l.takeWhile isLowerAZ).isEmpty = false) :
    ∃ c cs, l = c :: cs ∧ isLowerAZ c = true := by
  cases l with
  | nil => cases h
  | cons c cs =>
    by_cases hc : isLowerAZ c = true
    · exact ⟨c, cs, rfl, hc⟩
    · rw [List.takeWhile_cons_of_neg hc] at h
      cases h

theorem camel_head_lower {s : String} (h : is_camel_case s = true) :
    ∃ c cs, s.data = c :: cs ∧ isLowerAZ c = true := by
  simp only [is_camel_case, Bool.and_eq_true, Bool.not_eq_true'] at h
  exact lead_head_lower h.1

theorem snake_head_lower {s : String} (h : is_snake_case s = true) :
    ∃ c cs, s.data = c :: cs ∧ isLowerAZ c = true := by
  simp only [is_snake_case, Bool.and_eq_true, Bool.not_eq_true'] at h
  exact lead_head_lower h.1

theorem kebab_head_lower {s : String} (h : is_kebab_case s = true) :
    ∃ c cs, s.data = c :: cs ∧ isLowerAZ c = true := by
  simp only [is_kebab_case, Bool.and_eq_true, Bool.not_eq_true'] at h
  exact lead_head_lower h.1

theorem pascal_head_upper {s : String} (h : is_pascal_case s = true) :
    ∃ c cs, s.data = c :: cs ∧ isUpperAZ c = true := by
  simp only [is_pascal_case, Bool.and_eq_true, Bool.not_eq_true'] at h
  cases hl : s.data with
  | nil => rw [hl] at h; cases h.1
  | cons c cs =>
    rw [hl] at h
    exact ⟨c, cs, rfl, camelTailAux_head_upper h.2⟩

theorem pascal_false_of_head_lower {s : String}
    (h : ∃ c cs, s.data = c :: cs ∧ isLowerAZ c = true) : is_pascal_case s = false := by
  rw [Bool.eq_false_iff]
  intro hp
  obtain ⟨c, cs, hl, hc⟩ := h
  obtain ⟨c', cs', hl', hc'⟩ := pascal_head_upper hp
  rw [hl] at hl'
  injection hl' with h1 _
  subst h1
  rw [not_upper_of_lower hc] at hc'
  cases hc'

/-- If a string is simultaneously camel-shaped and snake/kebab-shaped (for
either separator), its leading `[a-z]+` run is the whole string. -/
theorem camel_snakeTail_all_lower (sep : Char) {s : String}
    (hupper_sep : isUpperAZ sep = false)
    (hc : is_camel_case s = true)
    (hs : (!(s.data.takeWhile isLowerAZ).isEmpty &&
      snakeTailAux sep s.data.length (s.data.dropWhile isLowerAZ)) = true) :
    ∀ c ∈ s.data, isLowerAZ c = true := by
  simp only [is_camel_case, Bool.and_eq_true, Bool.not_eq_true'] at hc
  simp only [Bool.and_eq_true, Bool.not_eq_true'] at hs
  cases hdrop : s.data.dropWhile isLowerAZ with
  | nil =>
    have hall : s.data = s.data.takeWhile isLowerAZ := by
      conv_lhs => rw [← List.takeWhile_append_dropWhile isLowerAZ s.data]
      rw [hdrop, List.append_nil]
    intro c hcmem
    rw [hall] at hcmem
    exact mem_of_mem_takeWhile s.data c hcmem
  | cons d ds =>
    exfalso
    have h1 := hc.2
    have h2 := hs.2
    rw [hdrop] at h1 h2
    have hd : d = sep := snakeTailAux_head_sep h2
    have hu : isUpperAZ d = true := camelTailAux_head_upper h1
    rw [hd, hupper_sep] at hu
    cases hu

theorem snake_kebab_all_lower {s : String}
    (hs : is_snake_case s = true) (hk : is_kebab_case s = true) :
    ∀ c ∈ s.data, isLowerAZ c = true := by
  simp only [is_snake_case, Bool.and_eq_true, Bool.not_eq_true'] at hs
  simp only [is_kebab_case, Bool.and_eq_true, Bool.not_eq_true'] at hk
  cases hdrop : s.data.dropWhile isLowerAZ with
  | nil =>
    have hall : s.data = s.data.takeWhile isLowerAZ := by
      conv_lhs => rw [← List.takeWhile_append_dropWhile isLowerAZ s.data]
      rw [hdrop, List.append_nil]
    intro c hcmem
    rw [hall] at hcmem
    exact mem_of_mem_takeWhile s.data c hcmem
  | cons d ds =>
    exfalso
    have h1 := hs.2
    have h2 := hk.2
    rw [hdrop] at h1 h2
    have hd1 : d = '_' := snakeTailAux_head_sep h1
    have hd2 : d = '-' := snakeTailAux_head_sep h2
    rw [hd1] at hd2
    cases hd2

theorem all_lower_matches {s : String} (hne : s.data ≠ [])
    (h : ∀ c ∈ s.data, isLowerAZ c = true) :
    is_camel_case s = true ∧ is_snake_case s = true ∧ is_kebab_case s = true := by
  have htake : s.data.takeWhile isLowerAZ = s.data := takeWhile_eq_self_of_all s.data h
  have hdrop : s.data.dropWhile isLowerAZ = [] := dropWhile_eq_nil_of_all s.data h
  have hne' : (s.data.takeWhile isLowerAZ).isEmpty = false := by
    rw [htake]
    cases hl : s.data with
    | nil => exact absurd hl hne
    | cons c cs => rfl
  refine ⟨?_, ?_, ?_⟩
  · simp only [is_camel_case, Bool.and_eq_true, Bool.not_eq_true']
    exact ⟨hne', by rw [hdrop]; exact camelTailAux_nil _⟩
  · simp only [is_snake_case, Bool.and_eq_true, Bool.not_eq_true']
    exact ⟨hne', by rw [hdrop]; exact snakeTailAux_nil _ _⟩
  · simp only [is_kebab_case, Bool.and_eq_true, Bool.not_eq_true']
    exact ⟨hne', by rw [hdrop]; exact snakeTailAux_nil _ _⟩

/-- Claim C1, counterexample: the single-word all-lowercase identifier
`"abc"` satisfies the camelCase, snake_case *and* kebab-case grammars
simultaneously (not only snake_case as claimed), and `get_case_style`
classifies it as `"camelCase"`, not `"snake_case"`. -/
theorem get_case_style_overlap_cex :
    is_camel_case "abc" = true ∧ is_snake_case "abc" = true ∧
    is_kebab_case "abc" = true ∧ get_case_style "abc" = "camelCase" ∧
    ("camelCase" : String) ≠ "snake_case" := by
  exact ⟨by decide, by decide, by decide, by decide, by decide⟩

/-- Claim C1 (amended): `get_case_style` returns the tag of the *first*
grammar the identifier matches, in the order camelCase, PascalCase,
snake_case, kebab-case, and `"unknown"` when none matches.  The grammars
are pairwise exclusive — PascalCase with all three others outright —
except that a camelCase/snake_case, camelCase/kebab-case or
snake_case/kebab-case overlap forces the identifier to be a single
all-lowercase word, and every non-empty all-lowercase identifier matches
those three grammars simultaneously and is classified `"camelCase"`. -/
theorem get_case_style_spec (s : String) :
    (is_camel_case s = true → get_case_style s = "camelCase") ∧
    (is_pascal_case s = true → get_case_style s = "PascalCase") ∧
    (is_snake_case s = true → is_camel_case s = false → get_case_style s = "snake_case") ∧
    (is_kebab_case s = true → is_camel_case s = false → is_snake_case s = false →
      get_case_style s = "kebab-case") ∧
    (is_camel_case s = false → is_pascal_case s = false → is_snake_case s = false →
      is_kebab_case s = false → get_case_style s = "unknown") ∧
    (¬ (is_camel_case s = true ∧ is_pascal_case s = true)) ∧
    (¬ (is_pascal_case s = true ∧ is_snake_case s = true)) ∧
    (¬ (is_pascal_case s = true ∧ is_kebab_case s = true)) ∧
    (is_camel_case s = true → is_snake_case s = true → ∀ c ∈ s.data, isLowerAZ c = true) ∧
    (is_camel_case s = true → is_kebab_case s = true → ∀ c ∈ s.data, isLowerAZ c = true) ∧
    (is_snake_case s = true → is_kebab_case s = true → ∀ c ∈ s.data, isLowerAZ c = true) ∧
    (s.data ≠ [] → (∀ c ∈ s.data, isLowerAZ c = true) →
      is_camel_case s = true ∧ is_snake_case s = true ∧ is_kebab_case s = true ∧
      get_case_style s = "camelCase") := by
  refine ⟨?_, ?_, ?_, ?_, ?_, ?_, ?_, ?_, ?_, ?_, ?_, ?_⟩
  · intro hc
    simp only [get_case_style, hc, if_true]
  · intro hp
    have hc : is_camel_case s = false := by
      rw [Bool.eq_false_iff]
      intro hc
      obtain ⟨c, cs, hl, hlow⟩ := camel_head_lower hc
      obtain ⟨c', cs', hl', hup⟩ := pascal_head_upper hp
      rw [hl] at hl'
      injection hl' with h1 _
      subst h1
      rw [not_upper_of_lower hlow] at hup
      cases hup
    simp only [get_case_style, hc, hp, Bool.false_eq_true, if_false, if_true]
  · intro hs hc
    have hp : is_pascal_case s = false := pascal_false_of_head_lower (snake_head_lower hs)
    simp only [get_case_style, hc, hp, hs, Bool.false_eq_true, if_false, if_true]
  · intro hk hc hs
    have hp : is_pascal_case s = false := pascal_false_of_head_lower (kebab_head_lower hk)
    simp only [get_case_style, hc, hp, hs, hk, Bool.false_eq_true, if_false, if_true]
  · intro hc hp hs hk
    simp only [get_case_style, hc, hp, hs, hk, Bool.false_eq_true, if_false]
  · rintro ⟨hc, hp⟩
    obtain ⟨c, cs, hl, hlow⟩ := camel_head_lower hc
    obtain ⟨c', cs', hl', hup⟩ := pascal_head_upper hp
    rw [hl] at hl'
    injection hl' with h1 _
    subst h1
    rw [not_upper_of_lower hlow] at hup
    cases hup
  · rintro ⟨hp, hs⟩
    rw [pascal_false_of_head_lower (snake_head_lower hs)] at hp
    cases hp
  · rintro ⟨hp, hk⟩
    rw [pascal_false_of_head_lower (kebab_head_lower hk)] at hp
    cases hp
  · intro hc hs
    apply camel_snakeTail_all_lower '_' (by decide) hc
    simp only [is_snake_case] at hs
    exact hs
  · intro hc hk
    apply camel_snakeTail_all_lower '-' (by decide) hc
    simp only [is_kebab_case] at hk
    exact hk
  · exact snake_kebab_all_lower
  · intro hne hall
    obtain ⟨hc, hs, hk⟩ := all_lower_matches hne hall
    exact ⟨hc, hs, hk, by simp only [get_case_style, hc, if_true]⟩

/-- Claim C1, witness: the amended classification applied at
`"nameOfVariable"`. -/
theorem get_case_style_spec_app : get_case_style "nameOfVariable" = "camelCase" :=
  (get_case_style_spec "nameOfVariable").1 (by decide)

/-! ### Alphabetic base-26 increment/decrement -/

/-- Python `chr(ord(c) + 1)`. -/
def charSucc (c : Char) : Char := Char.ofNat (c.toNat + 1)

/-- Python `chr(ord(c) - 1)`. -/
def charPred (c : Char) : Char := Char.ofNat (c.toNat - 1)

/-- The backwards carry loop of `increment_character`, on the reversed
character list: a non-end character is incremented and stops the carry; an
end character resets to the start character and carries left.  The flag
reports carry-out (every position was the end character). -/
def incRev (startC endC : Char) : List Char → List Char × Bool
  | [] => ([], true)
  | c :: cs =>
    if c == endC then
      let r := incRev startC endC cs
      (startC :: r.1, r.2)
    else (charSucc c :: cs, false)

/-- The backwards borrow loop of `decrement_character`: a non-start
character is decremented and stops the borrow; a start character resets to
the end character and borrows left. -/
def decRev (startC endC : Char) : List Char → List Char × Bool
  | [] => ([], true)
  | c :: cs =>
    if c == startC then
      let r := decRev startC endC cs
      (endC :: r.1, r.2)
    else (charPred c :: cs, false)

/-- Function `increment_character` from `lib/naming.py`: Excel-column-style
increment over a uniform-case letter string; the case is read from
`text[0]`, which faults on the empty string (modelled as `none`); on full
carry-out one start character is prepended. -/
def increment_character (text : String) : Option String :=
  match text.data with
  | [] => none
  | c0 :: _ =>
    let startC := if isUpperAZ c0 then 'A' else 'a'
    let endC := if isUpperAZ c0 then 'Z' else 'z'
    let r := incRev startC endC text.data.reverse
    some (String.mk (if r.2 then startC :: r.1.reverse else r.1.reverse))

/-- Function `decrement_character` from `lib/naming.py`: the mirror borrow loop; on
full borrow-out (all start characters) the first character of the
end-character-filled result is dropped. -/
def decrement_character (text : String) : Option String :=
  match text.data with
  | [] => none
  | c0 :: _ =>
    let startC := if isUpperAZ c0 then 'A' else 'a'
    let endC := if isUpperAZ c0 then 'Z' else 'z'
    let r := decRev startC endC text.data.reverse
    some (String.mk (if r.2 then (r.1.reverse).drop 1 else r.1.reverse))

example : increment_character "A" = some "B" := by decide
example : increment_character "Z" = some "AA" := by decide
example : increment_character "aa" = some "ab" := by decide
example : increment_character "AZ" = some "BA" := by decide
example : increment_character "zz" = some "aaa" := by decide
example : decrement_character "B" = some "A" := by decide
example : decrement_character "AA" = some "Z" := by decide
example : decrement_character "a" = some "" := by decide
example : decrement_character "BA" = some "AZ" := by decide
example : decrement_character "aaa" = some "zz" := by decide

theorem char_toNat_inj {c d : Char} (h : c.toNat = d.toNat) : c = d :=
  Char.ext (UInt32.toNat.inj h)

theorem charSucc_toNat {c : Char} (h : c.toNat < 55295) : (charSucc c).toNat = c.toNat + 1 := by
  rw [charSucc, toNat_ofNat_lt (by omega)]

/-- Off the all-end-characters boundary, one borrow loop undoes one carry
loop exactly: `decRev ∘ incRev = id` with no carry and no borrow, and the
carried result stays inside the letter range. -/
theorem incRev_decRev {sC eC : Char} (hlt : sC.toNat < eC.toNat) (hv : eC.toNat < 55295) :
    ∀ r : List Char,
      (∀ c ∈ r, sC.toNat ≤ c.toNat ∧ c.toNat ≤ eC.toNat) →
      (∃ c ∈ r, c ≠ eC) →
      (incRev sC eC r).2 = false ∧
      (incRev sC eC r).1.length = r.length ∧
      (∀ c ∈ (incRev sC eC r).1, sC.toNat ≤ c.toNat ∧ c.toNat ≤ eC.toNat) ∧
      decRev sC eC (incRev sC eC r).1 = (r, false) := by
  intro r
  induction r with
  | nil =>
    rintro _ ⟨c, hc, _⟩
    cases hc
  | cons c cs ih =>
    intro hrange hex
    rcases eq_or_ne c eC with hceq | hcne
    · have hbeq : (c == eC) = true := beq_iff_eq.mpr hceq
      have hex' : ∃ x ∈ cs, x ≠ eC := by
        obtain ⟨x, hx, hxe⟩ := hex
        cases hx with
        | head => exact absurd hceq hxe
        | tail _ hx => exact ⟨x, hx, hxe⟩
      obtain ⟨ih1, ih2, ih3, ih4⟩ :=
        ih (fun x hx => hrange x (List.mem_cons_of_mem c hx)) hex'
      simp only [incRev, hbeq, if_true]
      refine ⟨ih1, by simp [ih2], ?_, ?_⟩
      · intro x hx
        cases hx with
        | head => exact ⟨Nat.le_refl _, Nat.le_of_lt hlt⟩
        | tail _ hx => exact ih3 x hx
      · have hsbeq : (sC == sC) = true := beq_iff_eq.mpr rfl
        simp only [decRev, hsbeq, if_true, ih4, hceq]
    · have hbeq : (c == eC) = false := by
        rw [Bool.eq_false_iff]
        intro hb
        exact hcne (beq_iff_eq.mp hb)
      have hc := hrange c (List.mem_cons_self c cs)
      have hclt : c.toNat < eC.toNat := by
        rcases Nat.lt_or_ge c.toNat eC.toNat with h | h
        · exact h
        · exact absurd (char_toNat_inj (Nat.le_antisymm hc.2 h)) hcne
      have hsucc : (charSucc c).toNat = c.toNat + 1 := charSucc_toNat (by omega)
      simp only [incRev, hbeq, Bool.false_eq_true, if_false]
      refine ⟨trivial, rfl, ?_, ?_⟩
      · intro x hx
        cases hx with
        | head => rw [hsucc]; omega
        | tail _ hx => exact hrange x (List.mem_cons_of_mem c hx)
      · have hsne : (charSucc c == sC) = false := by
          rw [Bool.eq_false_iff]
          intro hb
          have := congrArg Char.toNat (beq_iff_eq.mp hb)
          rw [hsucc] at this
          omega
        have hpred : charPred (charSucc c) = c := by
          rw [charPred, hsucc]
          simp only [Nat.add_sub_cancel]
          exact Char.ofNat_toNat c
        simp only [decRev, hsne, Bool.false_eq_true, if_false, hpred]

theorem data_mk (l : List Char) : (String.mk l).data = l := rfl

/-- Round trip of the two character loops at the operation level, for any
consistent start/end pair recognised by the case detection. -/
theorem inc_dec_char_aux (sC eC : Char) (l : List Char)
    (hlt : sC.toNat < eC.toNat) (hv : eC.toNat < 55295)
    (hrange : ∀ c ∈ l, sC.toNat ≤ c.toNat ∧ c.toNat ≤ eC.toNat)
    (hex : ∃ c ∈ l, c ≠ eC)
    (hne : l ≠ [])
    (hupEq : ∀ c : Char, sC.toNat ≤ c.toNat → c.toNat ≤ eC.toNat →
      ((if isUpperAZ c then 'A' else 'a') = sC ∧ (if isUpperAZ c then 'Z' else 'z') = eC)) :
    (increment_character (String.mk l)).bind decrement_character = some (String.mk l) := by
  cases l with
  | nil => exact absurd rfl hne
  | cons c0 rest =>
    have hc0 := hrange c0 (List.mem_cons_self c0 rest)
    obtain ⟨hA, hZ⟩ := hupEq c0 hc0.1 hc0.2
    have hrangeR : ∀ c ∈ (c0 :: rest).reverse, sC.toNat ≤ c.toNat ∧ c.toNat ≤ eC.toNat :=
      fun c hc => hrange c (List.mem_reverse.mp hc)
    have hexR : ∃ c ∈ (c0 :: rest).reverse, c ≠ eC := by
      obtain ⟨c, hc, hce⟩ := hex
      exact ⟨c, List.mem_reverse.mpr hc, hce⟩
    obtain ⟨h1, h2, h3, h4⟩ := incRev_decRev hlt hv _ hrangeR hexR
    simp only [increment_character, data_mk]
    rw [hA, hZ, h1]
    simp only [Bool.false_eq_true, if_false, Option.some_bind]
    obtain ⟨d0, ds, hY⟩ : ∃ d0 ds,
        (incRev sC eC ((c0 :: rest).reverse)).1.reverse = d0 :: ds := by
      cases hY : (incRev sC eC ((c0 :: rest).reverse)).1.reverse with
      | nil =>
        exfalso
        have hl := congrArg List.length hY
        simp only [List.length_reverse, h2] at hl
        simp at hl
      | cons d0 ds => exact ⟨d0, ds, rfl⟩
    have hd0 : d0 ∈ (incRev sC eC ((c0 :: rest).reverse)).1 := by
      rw [← List.mem_reverse, hY]
      exact List.mem_cons_self _ _
    have hd0r := h3 d0 hd0
    obtain ⟨hA2, hZ2⟩ := hupEq d0 hd0r.1 hd0r.2
    rw [hY]
    simp only [decrement_character, data_mk]
    rw [hA2, hZ2]
    rw [show (d0 :: ds).reverse = (incRev sC eC ((c0 :: rest).reverse)).1 from by
      rw [← hY, List.reverse_reverse]]
    rw [h4]
    simp only [Bool.false_eq_true, if_false, List.reverse_reverse]

/-- Claim C6: for a non-empty uniform-case letter string that is not
entirely end characters, `decrement_character (increment_character s) = s`:
the two base-26 operations are mutual inverses off the boundary. -/
theorem increment_decrement_character_inverse (s : String)
    (hne : s.data ≠ [])
    (hcase : (∀ c ∈ s.data, isUpperAZ c = true) ∨ (∀ c ∈ s.data, isLowerAZ c = true))
    (hend : ∃ c ∈ s.data, c ≠ 'Z' ∧ c ≠ 'z') :
    (increment_character s).bind decrement_character = some s := by
  obtain ⟨l⟩ := s
  have hA65 : ('A' : Char).toNat = 65 := rfl
  have hZ90 : ('Z' : Char).toNat = 90 := rfl
  have ha97 : ('a' : Char).toNat = 97 := rfl
  have hz122 : ('z' : Char).toNat = 122 := rfl
  cases hcase with
  | inl hupper =>
    refine inc_dec_char_aux 'A' 'Z' l (by decide) (by decide) ?_ ?_ hne ?_
    · intro c hc
      have := isUpperAZ_iff.mp (hupper c hc)
      omega
    · obtain ⟨c, hc, hcZ, _⟩ := hend
      exact ⟨c, hc, hcZ⟩
    · intro c hlo hhi
      rw [hA65] at hlo
      rw [hZ90] at hhi
      have hu : isUpperAZ c = true := isUpperAZ_iff.mpr (by omega)
      rw [hu]
      exact ⟨rfl, rfl⟩
  | inr hlower =>
    refine inc_dec_char_aux 'a' 'z' l (by decide) (by decide) ?_ ?_ hne ?_
    · intro c hc
      have := isLowerAZ_iff.mp (hlower c hc)
      omega
    · obtain ⟨c, hc, _, hcz⟩ := hend
      exact ⟨c, hc, hcz⟩
    · intro c hlo hhi
      rw [ha97] at hlo
      rw [hz122] at hhi
      have hu : isUpperAZ c = false := by
        rw [Bool.eq_false_iff]
        intro h
        have := isUpperAZ_iff.mp h
        omega
      rw [hu]
      exact ⟨rfl, rfl⟩

/-- Claim C6, witness: the inverse property applied at `"az"`
(`increment_character "az" = "ba"`, `decrement_character "ba" = "az"`). -/
theorem increment_decrement_character_inverse_app :
    (increment_character "az").bind decrement_character = some "az" :=
  increment_decrement_character_inverse "az" (by decide) (Or.inr (by decide)) (by decide)
